import Mathlib

/-!
Shallow embedding of the dgraph storage core covered by the specification:
`codec/codec.go` (UID-set codec) and `posting/mvcc.go` (MVCC read path,
transaction commit-to-skiplist, incremental rollup engine).

Conventions:
* Go `uint64` values are modelled as `Nat`; wherever Go wrapping arithmetic
  matters the reduction `% W64` is written explicitly.
* Go byte slices are modelled as `List Nat` (each element a byte value).
* Go `nil` pointers are modelled as `Option` with `none`.
* External collaborators (the sroar bitmap library, the badger KV store,
  the x key parser) are modelled by their documented contracts; each such
  definition carries a doc comment saying so.
-/

/-- Word bound of Go `uint64` arithmetic. -/
def W64 : Nat := 2 ^ 64

/-- Largest `uint64`, Go `math.MaxUint64`.  In-memory deltas are keyed at
this timestamp before a commit timestamp is assigned. -/
def MaxU64 : Nat := W64 - 1

/-- Wrapping `uint64` subtraction `a - b` as Go computes it. -/
def wsub (a b : Nat) : Nat := (a + (W64 - b % W64)) % W64

/-! ### Go `encoding/binary` varint model -/

/-- Model of Go `encoding/binary.PutUvarint`: while `x >= 0x80` emit
`byte(x) | 0x80` and shift `x` right by 7; finally emit `byte(x)`.
Bytes are `Nat` values below 256. -/
def putUvarint (x : Nat) : List Nat :=
  if h : x < 0x80 then [x % 256]
  else (x % 256 ||| 0x80) :: putUvarint (x >>> 7)
decreasing_by
  simp only [Nat.shiftRight_eq_div_pow]
  exact Nat.div_lt_self (by omega) (by norm_num)

/-- Loop of Go `encoding/binary.Uvarint` over the buffer, carrying the
accumulator `x`, the shift `s` and the byte index `i`.  Returns the decoded
value and the number of bytes consumed: `0` when the buffer ran out,
negative on overflow, as in the Go standard library. -/
def uvarintAux : List Nat → Nat → Nat → Nat → Nat × Int
  | [], _, _, _ => (0, 0)
  | b :: rest, x, s, i =>
    if i = 10 then (0, -(i + 1 : Int))
    else if b < 0x80 then
      if i = 9 ∧ 1 < b then (0, -(i + 1 : Int))
      else (x ||| ((b <<< s) % W64), (i + 1 : Int))
    else uvarintAux rest (x ||| (((b &&& 0x7f) <<< s) % W64)) (s + 7) (i + 1)

/-- Model of Go `encoding/binary.Uvarint`. -/
def uvarint (buf : List Nat) : Nat × Int := uvarintAux buf 0 0 0

/-! ### sroar bitmap, modelled by contract

The sroar compressed bitmap is an external library; the spec treats it as a
set of uids.  A bitmap is modelled by its sorted uid array (the value
`ToArray` returns); buffers produced by serialization are modelled by the
uid array they denote, with the documented special case that an empty
bitmap serializes to the nil (empty) buffer. -/

/-- A sroar bitmap, represented by its uid array. -/
abbrev Bitmap := List Nat

namespace Sroar

/-- Contract model of `sroar.NewBitmap`: the empty bitmap. -/
def NewBitmap : Bitmap := []

/-- Contract model of `Bitmap.ToArray`: the sorted uid array. -/
def ToArray (bm : Bitmap) : List Nat := bm

/-- Contract model of `Bitmap.GetCardinality`. -/
def GetCardinality (bm : Bitmap) : Nat := bm.length

/-- Contract model of `Bitmap.ToBufferWithCopy`: serializes the bitmap; an
empty bitmap yields the nil buffer. -/
def ToBufferWithCopy (bm : Bitmap) : List Nat := bm

/-- Contract model of `sroar.FromBufferWithCopy`: decodes a serialized
buffer; the nil buffer decodes to the empty bitmap. -/
def FromBufferWithCopy (buf : List Nat) : Bitmap := buf

/-- Contract model of `sroar.FromBuffer` (zero-copy variant): same
denotation as `FromBufferWithCopy`. -/
def FromBuffer (buf : List Nat) : Bitmap := buf

/-- Contract model of `NewBitmap` followed by `Bitmap.SetMany`: the bitmap
holding exactly the given uids. -/
def SetMany (uids : List Nat) : Bitmap :=
  (List.insertionSort (· ≤ ·) uids).dedup

/-- Contract model of `sroar.FromSortedList`: the bitmap holding the given
already-sorted uids. -/
def FromSortedList (uids : List Nat) : Bitmap := uids

/-- Contract model of `Bitmap.RemoveRange`: removes the half-open interval
`[lo, hi)`. -/
def RemoveRange (bm : Bitmap) (lo hi : Nat) : Bitmap :=
  bm.filter fun u => decide (¬ (lo ≤ u ∧ u < hi))

/-- Contract model of `Bitmap.Remove`: removes one uid. -/
def Remove (bm : Bitmap) (v : Nat) : Bitmap :=
  bm.filter fun u => decide (u ≠ v)

end Sroar

/-! ### codec/codec.go -/

/-- Model of `pb.List`: either a serialized bitmap buffer or a sorted uid
array; Go nil slices are empty lists. -/
structure PbList where
  bitmap : List Nat := []
  sortedUids : List Nat := []
deriving DecidableEq

namespace Codec

/-- `ToList` (codec.go): wraps the serialized bitmap into a `pb.List`,
leaving `SortedUids` nil. -/
def ToList (rm : Bitmap) : PbList :=
  { bitmap := Sroar.ToBufferWithCopy rm }

/-- `ToSortedList` (codec.go): wraps the uid array, leaving `Bitmap` nil. -/
def ToSortedList (rm : Bitmap) : PbList :=
  { sortedUids := Sroar.ToArray rm }

/-- `FromList` (codec.go): nil gives the empty bitmap; a populated `Bitmap`
field wins over `SortedUids`; an all-empty list gives the empty bitmap. -/
def FromList (l : Option PbList) : Bitmap :=
  match l with
  | none => Sroar.NewBitmap
  | some l =>
    if 0 < l.bitmap.length then Sroar.FromBufferWithCopy l.bitmap
    else if 0 < l.sortedUids.length then Sroar.SetMany l.sortedUids
    else Sroar.NewBitmap

/-- `FromListNoCopy` (codec.go): as `FromList` but decoding the buffer
without copying. -/
def FromListNoCopy (l : Option PbList) : Bitmap :=
  match l with
  | none => Sroar.NewBitmap
  | some l =>
    if 0 < l.bitmap.length then Sroar.FromBuffer l.bitmap
    else if 0 < l.sortedUids.length then Sroar.SetMany l.sortedUids
    else Sroar.NewBitmap

/-- `ListCardinality` (codec.go). -/
def ListCardinality (l : Option PbList) : Nat :=
  match l with
  | none => 0
  | some l =>
    if 0 < l.sortedUids.length then l.sortedUids.length
    else Sroar.GetCardinality (FromListNoCopy (some l))

/-- `GetUids` (codec.go). -/
def GetUids (l : Option PbList) : List Nat :=
  match l with
  | none => []
  | some l =>
    if 0 < l.sortedUids.length then l.sortedUids
    else Sroar.ToArray (FromListNoCopy (some l))

/-- `RemoveRange` (codec.go): removes the closed interval `[lo, hi]` by a
half-open sroar `RemoveRange` followed by `Remove hi`.  The Go parameters
are named `from` and `to`. -/
def RemoveRange (bm : Bitmap) (lo hi : Nat) : Bitmap :=
  Sroar.Remove (Sroar.RemoveRange bm lo hi) hi

/-- Loop of `FromBackup` (codec.go): repeatedly decode a uvarint delta,
stopping on a zero delta or an exhausted buffer; each decoded uid is the
wrapping sum of the previous uid and the delta.  The guard on a
non-positive consumed-byte count is unreachable (a nonzero decoded value
always consumes at least one byte, see `uvarint_snd_pos`); it is spelled
out only to exhibit termination. -/
def fromBackupLoop : List Nat → Nat → List Nat → List Nat
  | [], _, acc => acc
  | b :: bs, prev, acc =>
    if (uvarint (b :: bs)).1 = 0 then acc
    else if _h0 : (uvarint (b :: bs)).2.toNat = 0 then acc
    else
      fromBackupLoop ((b :: bs).drop (uvarint (b :: bs)).2.toNat)
        ((prev + (uvarint (b :: bs)).1) % W64)
        (acc ++ [(prev + (uvarint (b :: bs)).1) % W64])
termination_by buf _ _ => buf.length
decreasing_by
  simp only [List.length_drop, List.length_cons]
  omega

/-- `FromBackup` (codec.go): decodes a varint-delta sorted-uid stream that
terminates at a zero delta, then builds the bitmap from the sorted uids. -/
def FromBackup (buf : List Nat) : Bitmap :=
  Sroar.FromSortedList (fromBackupLoop buf 0 [])

/-- Loop of `DecodeToBuffer` (codec.go): emit each uid's delta from the
previous uid as a uvarint (wrapping `uint64` subtraction).  The 64-uid
chunking of `ManyIterator` does not change the emitted byte stream, so the
iteration over the uid array is modelled flat. -/
def decodeToBufferLoop : List Nat → Nat → List Nat
  | [], _ => []
  | u :: us, last => putUvarint (wsub u last) ++ decodeToBufferLoop us u

/-- `DecodeToBuffer` (codec.go): writes the delta-varint form of the bitmap
into a caller-owned buffer, which is modelled by returning the bytes. -/
def DecodeToBuffer (bm : Bitmap) : List Nat :=
  decodeToBufferLoop (Sroar.ToArray bm) 0

end Codec

/-! ### posting/mvcc.go: data model -/

/-- The Go user-meta byte constants (`BitDeltaPosting`, `BitCompletePosting`,
`BitEmptyPosting`, `BitSchemaPosting`) are modelled as a small variant; the
`other` constructor carries any byte outside the four known tags, matching
the `default` branch of the dispatch in `ReadPostingList`. -/
inductive UserMeta where
  | delta
  | complete
  | empty
  | schema
  | other (b : Nat)
deriving DecidableEq

/-- A `pb.Posting` restricted to the field `ReadPostingList` touches: the
in-memory commit timestamp it stamps onto each posting of a delta. -/
structure PostingM where
  uid : Nat := 0
  commitTs : Nat := 0
deriving DecidableEq

/-- A `pb.PostingList` proto: serialized bitmap payload, postings and the
in-memory commit timestamp. -/
structure PostingListPb where
  bitmap : List Nat := []
  postings : List PostingM := []
  commitTs : Nat := 0
deriving DecidableEq

/-- The in-memory `List` of posting/lists.go, restricted to the fields
`mvcc.go` reads and writes: key bytes, the `[minTs, maxTs]` version window,
the immutable base proto and the commit-ts-indexed delta map (modelled as
an association list). -/
structure ListM where
  key : List Nat := []
  minTs : Nat := 0
  maxTs : Nat := 0
  plist : PostingListPb := {}
  mutationMap : List (Nat × PostingListPb) := []
deriving DecidableEq

/-- Insertion into a Go map modelled as an association list: replaces the
binding if the key is present, otherwise appends it. -/
def assocInsert (m : List (Nat × PostingListPb)) (k : Nat) (v : PostingListPb) :
    List (Nat × PostingListPb) :=
  match m with
  | [] => [(k, v)]
  | (k0, v0) :: rest =>
    if k0 = k then (k, v) :: rest else (k0, v0) :: assocInsert rest k v

/-- Errors surfaced by the read path, one constructor per `errors` value of
mvcc.go (`ErrTsTooOld` is declared but never raised by the covered code). -/
inductive ErrM where
  | tsTooOld
  | invalidKey
  | dbClosed
  | decodeError
  | schemaKey
  | unexpectedMeta (b : Nat)
deriving DecidableEq

/-- Modelled from the spec: `x.Parse` (package x, not under src/) parses an
opaque key into a structured form exposing `has_start_uid` (true for
secondary parts of a multi-part list).  A key is modelled together with its
parsed flag; parsing itself always succeeds in the model (the parse-error
path of `ReadPostingList` is orthogonal to every claim). -/
structure KeyM where
  bytes : List Nat := []
  hasStartUid : Bool := false
deriving DecidableEq

/-- One item yielded by the badger all-versions key iterator, modelled by
its contract: storage key bytes, version, deleted/expired flag, user-meta
tag, the discard-earlier-versions bit, and the unmarshalled value payload
(`none` models an unmarshal failure, `some {}` an empty value). -/
structure ItemM where
  key : List Nat := []
  version : Nat := 0
  deleted : Bool := false
  meta : UserMeta := .delta
  discard : Bool := false
  value : Option PostingListPb := some {}
deriving DecidableEq

/-! ### posting/mvcc.go: ReadPostingList -/

/-- The iteration of `ReadPostingList` over the key iterator, carrying the
list under construction and the running delta count.  Returns the result
and the final delta count (which drives the deferred rollup enqueue). -/
def readLoop : ListM → Nat → List ItemM → Except ErrM ListM × Nat
  | l, dc, [] => (.ok l, dc)
  | l, dc, item :: rest =>
    if item.key ≠ l.key then (.ok l, dc)
    else
      let l := { l with maxTs := max l.maxTs item.version }
      if item.deleted then (.ok l, dc)
      else
        match item.meta with
        | .empty => (.ok { l with minTs := item.version }, dc)
        | .complete =>
          match item.value with
          | none => (.error .decodeError, dc)
          | some pl => (.ok { l with plist := pl, minTs := item.version }, dc)
        | .delta =>
          match item.value with
          | none => (.error .decodeError, dc)
          | some pl =>
            let pl := { pl with
              commitTs := item.version,
              postings := pl.postings.map fun p => { p with commitTs := item.version } }
            let l := { l with mutationMap := assocInsert l.mutationMap pl.commitTs pl }
            if item.discard then (.ok l, dc + 1)
            else readLoop l (dc + 1) rest
        | .schema => (.error .schemaKey, dc)
        | .other b => (.error (.unexpectedMeta b), dc)

/-- The fresh list `ReadPostingList` allocates before iterating. -/
def initList (key : KeyM) : ListM := { key := key.bytes, plist := {} }

/-- The deferred block of `ReadPostingList`: with a positive delta count the
key is handed to `addKeyToBatch`, at priority 0 above 500 deltas and at
priority 1 otherwise.  Enqueue calls are modelled as `(key, priority)`
pairs. -/
def rollupEnqueues (key : KeyM) (deltaCount : Nat) : List (KeyM × Nat) :=
  if deltaCount > 0 then
    if deltaCount > 500 then [(key, 0)] else [(key, 1)]
  else []

/-- `ReadPostingList` (mvcc.go): rejects a multipart secondary key with
`ErrInvalidKey` before the deferred enqueue is registered; otherwise runs
the version loop and, on any exit of it, performs the deferred enqueue
dictated by the delta count.  Returns the result together with the list of
`addKeyToBatch` calls made. -/
def ReadPostingList (key : KeyM) (items : List ItemM) :
    Except ErrM ListM × List (KeyM × Nat) :=
  if key.hasStartUid then (.error .invalidKey, [])
  else
    let r := readLoop (initList key) 0 items
    (r.1, rollupEnqueues key r.2)

/-! ### posting/mvcc.go: getNew and the list cache -/

/-- A list-cache slot: either a fully loaded list or a sentinel
timestamp. -/
inductive CacheVal where
  | lst (l : ListM)
  | sentinel (t : Nat)
deriving DecidableEq

/-- `copyList` (mvcc.go): copies the four immutable fields; the mutation
map of a cached list is empty (asserted in the source). -/
def copyList (l : ListM) : ListM :=
  { minTs := l.minTs, maxTs := l.maxTs, key := l.key, plist := l.plist }

/-- Result of a fold of the mutation map. -/
structure RollupOut where
  newMinTs : Nat := 0
  plist : PostingListPb := {}
deriving DecidableEq

/-- Modelled from the spec: applying one delta of `List.rollup`
(posting/list.go, not under src/).  The spec describes folding only as
later commits overriding/appending earlier ones; the fold is modelled as a
uid-set union of the payloads.  No claim below inspects the folded
payload. -/
def applyDelta (base delta : PostingListPb) : PostingListPb :=
  { bitmap := Sroar.SetMany (base.bitmap ++ delta.bitmap),
    postings := base.postings ++ delta.postings,
    commitTs := delta.commitTs }

/-- Modelled from the spec: `List.rollup(readTs)` (posting/list.go, not
under src/).  Starting from the base at `min_ts`, every mutation with
`commit_ts ≤ readTs` is applied in ascending commit-ts order; the new
min-ts is the largest applied commit ts (the base min-ts when nothing
applies). -/
def rollupM (l : ListM) (readTs : Nat) : RollupOut :=
  let applied := (List.insertionSort (· ≤ ·) (l.mutationMap.map Prod.fst)).filter
    fun ts => decide (ts ≤ readTs)
  { newMinTs := applied.foldl max l.minTs,
    plist := applied.foldl
      (fun acc ts =>
        match l.mutationMap.lookup ts with
        | some d => applyDelta acc d
        | none => acc)
      l.plist }

/-- The sentinel timestamp `getNew` observes in the cache before the KV
read: the cached `uint64` when the slot holds one, otherwise 0. -/
def seenTsOf (cache : Option CacheVal) : Nat :=
  match cache with
  | some (.sentinel t) => t
  | _ => 0

/-- The version returned by the single-key iterator seek, modelled by the
badger contract: the version of the first item, 0 when there is none. -/
def latestTsOf (items : List ItemM) : Nat :=
  match items with
  | [] => 0
  | item :: _ => item.version

instance : DecidableEq (Except ErrM ListM) := fun x y =>
  match x, y with
  | .error a, .error b =>
    if h : a = b then isTrue (by rw [h])
    else isFalse fun hc => h (by cases hc; rfl)
  | .ok a, .ok b =>
    if h : a = b then isTrue (by rw [h])
    else isFalse fun hc => h (by cases hc; rfl)
  | .error _, .ok _ => isFalse fun hc => Except.noConfusion hc
  | .ok _, .error _ => isFalse fun hc => Except.noConfusion hc

/-- Observable outcome of one `getNew` call: the returned value, whether
the miss path pre-wrote the sentinel `1`, and whether the freshly built
list was offered to the cache via `SetIfPresent`. -/
structure GetNewOut where
  result : Except ErrM ListM
  sentinelWritten : Bool := false
  installed : Bool := false
deriving DecidableEq

/-- The KV-read tail of `getNew`: seek, `ReadPostingList`, rollup at
`MaxUint64`, and the guarded cache install
(`readTs >= latestTs && latestTs >= seenTs`). -/
def getNewRead (key : KeyM) (items : List ItemM) (readTs seenTs : Nat)
    (sentinelWritten : Bool) : GetNewOut :=
  let latestTs := latestTsOf items
  match (ReadPostingList key items).1 with
  | .error e => { result := .error e, sentinelWritten := sentinelWritten }
  | .ok l =>
    let out := rollupM l MaxU64
    let newList : ListM :=
      { minTs := out.newMinTs, maxTs := l.maxTs, key := l.key, plist := out.plist }
    { result := .ok newList,
      sentinelWritten := sentinelWritten,
      installed := decide (readTs ≥ latestTs ∧ latestTs ≥ seenTs) }

/-- `getNew` (mvcc.go): fail fast when the store is closed; on a cache hit
with a full list no newer than `readTs` return a copy; on a sentinel hit
remember it for the install guard; on a miss pre-write the sentinel `1`;
then read from the KV store at `readTs`. -/
def getNew (key : KeyM) (dbClosed : Bool) (cache : Option CacheVal)
    (items : List ItemM) (readTs : Nat) : GetNewOut :=
  if dbClosed then { result := .error .dbClosed }
  else
    match cache with
    | some (.lst l) =>
      if l.maxTs ≤ readTs then { result := .ok (copyList l) }
      else getNewRead key items readTs 0 false
    | some (.sentinel t) => getNewRead key items readTs t false
    | none => getNewRead key items readTs 0 true

/-! ### posting/mvcc.go: Txn.ToSkiplist -/

/-- Per-transaction cache restricted to what `ToSkiplist` reads: the delta
map (key bytes → delta payload bytes), modelled as an association list.
The Go map has distinct keys; theorems assume that where needed. -/
structure TxnCacheM where
  deltas : List (List Nat × List Nat) := []
deriving DecidableEq

/-- A transaction, restricted to the fields `ToSkiplist` touches. -/
structure TxnM where
  startTs : Nat := 0
  cache : TxnCacheM := {}
deriving DecidableEq

/-- One skiplist entry: `y.KeyWithTs(key, version)` is modelled as the pair
of key bytes and version; the value struct carries the payload and the
user-meta tag. -/
structure SklEntry where
  key : List Nat
  version : Nat
  value : List Nat
  userMeta : UserMeta
deriving DecidableEq

/-- Go map read on the association list; a missing key reads as the nil
slice. -/
def deltasGet : List (List Nat × List Nat) → List Nat → List Nat
  | [], _ => []
  | (k, v) :: rest, key => if k = key then v else deltasGet rest key

/-- The loop body of `Txn.ToSkiplist` for one key: read the delta, skip an
empty one (`continue`), skip one rejected by `badger.ValidEntry` (an
external contract, passed as `validEntry`), otherwise produce the entry at
version `MaxUint64` with user-meta `BitDeltaPosting`. -/
def skiplistEntry (validEntry : List Nat → List Nat → Bool)
    (deltas : List (List Nat × List Nat)) (k : List Nat) : Option SklEntry :=
  let data := deltasGet deltas k
  if data.length = 0 then none
  else if validEntry k data then some ⟨k, MaxU64, data, .delta⟩
  else none

/-- `Txn.ToSkiplist` (mvcc.go): collect the delta keys, sort them ascending
by raw bytes (`sort.Strings`; modelled by insertion sort under the
lexicographic order on byte lists, which agrees with Go string ordering),
then for each key skip an empty delta, skip a delta rejected by the KV
store's `badger.ValidEntry` (an external contract, passed as `validEntry`),
and otherwise add an entry at version `MaxUint64` with user-meta
`BitDeltaPosting`.  The built skiplist is the entry list in insertion
order. -/
def ToSkiplist (validEntry : List Nat → List Nat → Bool) (txn : TxnM) :
    List SklEntry :=
  let keys := txn.cache.deltas.map Prod.fst
  let sorted := List.insertionSort (· ≤ ·) keys
  sorted.filterMap (skiplistEntry validEntry txn.cache.deltas)

/-! ### posting/mvcc.go: incremental rollup engine -/

/-- Nanoseconds in a second, the value of Go `time.Second`. -/
def nsPerSec : Int := 1000000000

/-- Go `time.Time.Unix()` for an absolute instant given in nanoseconds. -/
def unixSec (tNano : Int) : Int := tNano / nsPerSec

/-- The dedup map of the rollup worker: key hash → unix seconds of the last
rollup.  A missing entry reads as 0, as a Go map does. -/
abbrev DedupMap := List (Nat × Int)

/-- Go map read with zero default (`m[hash]`). -/
def dedupGet : DedupMap → Nat → Int
  | [], _ => 0
  | (h, ts) :: rest, key => if h = key then ts else dedupGet rest key

/-- Go map write (`m[hash] = currTs`). -/
def dedupSet : DedupMap → Nat → Int → DedupMap
  | [], key, ts => [(key, ts)]
  | (h, t0) :: rest, key, ts =>
    if h = key then (key, ts) :: rest else (h, t0) :: dedupSet rest key ts

/-- `doRollup` (mvcc.go): for each key of the batch, skip it when the dedup
map shows a rollup less than 10 (seconds) ago, otherwise record `currTs`
(obtained from `time.Now().Unix()`, whole seconds) and invoke `rollupKey`.
Returns the updated map and the keys actually rolled up, in order.  The
key hash (`z.MemHash`) is an external function, passed as `hash`. -/
def doRollup (hash : List Nat → Nat) (m : DedupMap) (batch : List (List Nat))
    (currTs : Int) : DedupMap × List (List Nat) :=
  batch.foldl
    (fun acc key =>
      if currTs - dedupGet acc.1 (hash key) < 10 then acc
      else (dedupSet acc.1 (hash key) currTs, acc.2 ++ [key]))
    (m, [])

/-- The cleanup tick of `Process` (mvcc.go): with `currTs` taken from
`time.Now().UnixNano()`, delete every entry with
`currTs - ts >= int64(10*time.Second)`. -/
def cleanupTick (m : DedupMap) (currTs : Int) : DedupMap :=
  m.filter fun e => decide (currTs - e.2 < 10 * nsPerSec)

/-- One scheduling event of the rollup worker loop, stamped with the
absolute wall-clock instant (nanoseconds) at which it fires. -/
inductive RollupEvent where
  | batch (keys : List (List Nat)) (tNano : Int)
  | cleanup (tNano : Int)
deriving DecidableEq

/-- The instant at which an event fires. -/
def eventTime : RollupEvent → Int
  | .batch _ t => t
  | .cleanup t => t

/-- Run of the single-threaded worker loop of `Process` over a sequence of
events.  A batch event performs `doRollup` with the current time in whole
seconds; a cleanup event performs the cleanup tick with the current time in
nanoseconds, exactly as the two arms of the select loop do.  The run
returns the rollup log: each `rollupKey` invocation with its instant. -/
def procRun (hash : List Nat → Nat) : DedupMap → List RollupEvent →
    List (List Nat × Int)
  | _, [] => []
  | m, .batch keys t :: rest =>
    let r := doRollup hash m keys (unixSec t)
    (r.2.map fun k => (k, t)) ++ procRun hash r.1 rest
  | m, .cleanup t :: rest => procRun hash (cleanupTick m t) rest

/-! ### Concrete instances used by witnesses and counterexamples -/

/-- A main (non-multipart) key. -/
def keyMainW : KeyM := { bytes := [1] }

/-- A multipart secondary key (`has_start_uid` set). -/
def keyPartW : KeyM := { bytes := [3], hasStartUid := true }

/-- One COMPLETE item at version 5 for `keyMainW`. -/
def itemsCompleteW : List ItemM :=
  [{ key := [1], version := 5, meta := .complete }]

/-- A DELTA at version 7 above a COMPLETE at version 5 for `keyMainW`. -/
def itemsDeltaW : List ItemM :=
  [{ key := [1], version := 7, meta := .delta },
   { key := [1], version := 5, meta := .complete }]

/-- The list `getNew` returns on `itemsCompleteW` at read timestamp 10. -/
def c1ListW : ListM :=
  match (getNew keyMainW false none itemsCompleteW 10).result with
  | .ok l => l
  | .error _ => {}

/-- A cache slot holding the sentinel timestamp 50. -/
def cacheSentinelW : Option CacheVal := some (.sentinel 50)

/-- Items whose seek version (latest ts) is 30. -/
def itemsLatest30W : List ItemM :=
  [{ key := [1], version := 30, meta := .complete }]

/-- A per-entry size validator with limit `n`, a concrete instance of the
`badger.ValidEntry` contract. -/
def validUpTo (n : Nat) : List Nat → List Nat → Bool :=
  fun k v => decide (k.length ≤ n ∧ v.length ≤ n)

/-- A transaction with a single delta whose payload exceeds size limit 2. -/
def txnBigDeltaW : TxnM := { cache := { deltas := [([1], [2, 3, 4])] } }

/-- A transaction with two delta keys given in descending key order. -/
def txnTwoKeysW : TxnM := { cache := { deltas := [([2], [9]), ([1], [8])] } }

/-- The key used in the rollup dedup scenario. -/
def keyC8 : List Nat := [7]

/-- A concrete stand-in for the external `z.MemHash`. -/
def hashHead (k : List Nat) : Nat := k.headD 0

/-- Worker trace: roll up `keyC8` at t = 100 s, cleanup tick at t = 101 s,
then a second batch with `keyC8` at t = 102 s. -/
def eventsC8 : List RollupEvent :=
  [.batch [keyC8] (100 * nsPerSec),
   .cleanup (101 * nsPerSec),
   .batch [keyC8] (102 * nsPerSec)]

/-- Strictly sorted nonzero uids for the backup round-trip witness. -/
def uidsW : List Nat := [1, 5, 300]

/-- A bitmap for the remove-range witness. -/
def bmW : Bitmap := [1, 5, 10]

/-! ### Theorems

Helper lemmas come first; each claim of the specification gets exactly one
theorem, marked with its claim id. -/

theorem putUvarint_lt (x : Nat) (h : x < 0x80) : putUvarint x = [x] := by
  rw [putUvarint]
  simp [h, Nat.mod_eq_of_lt (show x < 256 by omega)]

theorem putUvarint_ge (x : Nat) (h : ¬ x < 0x80) :
    putUvarint x = (x % 256 ||| 0x80) :: putUvarint (x >>> 7) := by
  rw [putUvarint]
  simp [h]

theorem putUvarint_ne_nil (x : Nat) : putUvarint x ≠ [] := by
  by_cases h : x < 0x80
  · rw [putUvarint_lt x h]; simp
  · rw [putUvarint_ge x h]; simp

theorem lor_128_eq_add (a : Nat) (ha : a < 128) : a ||| 128 = a + 128 := by
  have h := Nat.mul_add_lt_is_or (i := 7) (b := a) (by omega) 1
  calc a ||| 128 = 128 ||| a := Nat.lor_comm a 128
    _ = 2 ^ 7 * 1 ||| a := by norm_num
    _ = 2 ^ 7 * 1 + a := h.symm
    _ = a + 128 := by omega

theorem byte_or_128 (d : Nat) : d % 256 ||| 0x80 = d % 128 + 128 := by
  have h256 : d % 256 = d % 128 + 128 * (d / 128 % 2) := by
    conv_lhs => rw [show (256 : Nat) = 128 * 2 from rfl]
    exact Nat.mod_mul
  have hlt : d % 128 < 128 := Nat.mod_lt _ (by norm_num)
  rcases Nat.mod_two_eq_zero_or_one (d / 128) with h2 | h2
  · rw [h256, h2, Nat.mul_zero, Nat.add_zero]
    exact lor_128_eq_add _ hlt
  · rw [h256, h2, Nat.mul_one]
    rw [show d % 128 + 128 = d % 128 ||| 128 from (lor_128_eq_add _ hlt).symm]
    rw [Nat.lor_assoc, show (128 : Nat) ||| 128 = 128 by rfl]

theorem and_127_eq_mod (b : Nat) : b &&& 0x7f = b % 128 := by
  have h := Nat.and_pow_two_sub_one_eq_mod b 7
  norm_num at h
  exact h

theorem uvarintAux_snd_pos :
    ∀ (buf : List Nat) (x s i : Nat), (uvarintAux buf x s i).1 ≠ 0 →
      0 < (uvarintAux buf x s i).2 := by
  intro buf
  induction buf with
  | nil => intro x s i h; simp [uvarintAux] at h
  | cons b rest ih =>
    intro x s i h
    by_cases h10 : i = 10
    · simp [uvarintAux, h10] at h
    · by_cases hb : b < 0x80
      · by_cases h9 : i = 9 ∧ 1 < b
        · simp [uvarintAux, h10, hb, h9] at h
        · simp only [uvarintAux, if_neg h10, if_pos hb, if_neg h9]
          omega
      · simp only [uvarintAux, if_neg h10, if_neg hb] at h ⊢
        exact ih _ _ _ h

theorem uvarint_snd_pos (buf : List Nat) (h : (uvarint buf).1 ≠ 0) :
    0 < (uvarint buf).2 :=
  uvarintAux_snd_pos buf 0 0 0 h

theorem uvarintAux_putUvarint (d : Nat) :
    ∀ (i x0 : Nat) (rest : List Nat), i ≤ 9 → d < 2 ^ (64 - 7 * i) →
      x0 < 2 ^ (7 * i) →
      uvarintAux (putUvarint d ++ rest) x0 (7 * i) i =
        (x0 + d * 2 ^ (7 * i), (i : Int) + (putUvarint d).length) := by
  induction d using Nat.strong_induction_on with
  | _ d ih =>
  intro i x0 rest hi hd hx0
  by_cases hlt : d < 0x80
  · rw [putUvarint_lt d hlt]
    have h10 : ¬ i = 10 := by omega
    have h9 : ¬ (i = 9 ∧ 1 < d) := by
      rintro ⟨rfl, h1⟩
      norm_num at hd
      omega
    have hsmall : d * 2 ^ (7 * i) < W64 := by
      have h1 : d * 2 ^ (7 * i) < 2 ^ (64 - 7 * i) * 2 ^ (7 * i) :=
        Nat.mul_lt_mul_of_lt_of_le hd (Nat.le_refl _) (Nat.two_pow_pos _)
      have h2 : (2 : Nat) ^ (64 - 7 * i) * 2 ^ (7 * i) = 2 ^ 64 := by
        rw [← pow_add]
        congr 1
        omega
      rw [h2] at h1
      simpa [W64] using h1
    have hmod : (d <<< (7 * i)) % W64 = d * 2 ^ (7 * i) := by
      rw [Nat.shiftLeft_eq, Nat.mod_eq_of_lt hsmall]
    have hor : x0 ||| d * 2 ^ (7 * i) = x0 + d * 2 ^ (7 * i) := by
      have h := Nat.mul_add_lt_is_or (i := 7 * i) (b := x0) hx0 d
      calc x0 ||| d * 2 ^ (7 * i) = d * 2 ^ (7 * i) ||| x0 := Nat.lor_comm _ _
        _ = 2 ^ (7 * i) * d ||| x0 := by rw [Nat.mul_comm]
        _ = 2 ^ (7 * i) * d + x0 := h.symm
        _ = x0 + d * 2 ^ (7 * i) := by rw [Nat.mul_comm]; omega
    simp only [List.singleton_append, uvarintAux, if_neg h10, if_pos hlt, if_neg h9,
      hmod, hor, List.length_cons, List.length_nil]
    norm_num
  · rw [putUvarint_ge d hlt]
    have hd128 : 128 ≤ d := by omega
    have h7 : 7 < 64 - 7 * i := by
      by_contra hc
      push_neg at hc
      have h1 : (2 : Nat) ^ (64 - 7 * i) ≤ 2 ^ 7 := Nat.pow_le_pow_right (by norm_num) hc
      norm_num at h1
      omega
    have h10 : ¬ i = 10 := by omega
    have hb : ¬ (d % 256 ||| 0x80) < 0x80 := by
      rw [byte_or_128]
      omega
    have hmask : (d % 256 ||| 0x80) &&& 0x7f = d % 128 := by
      rw [byte_or_128, and_127_eq_mod]
      omega
    have hm128 : d % 128 < 128 := Nat.mod_lt _ (by norm_num)
    have hpow : (2 : Nat) ^ (7 * (i + 1)) = 2 ^ (7 * i) * 128 := by
      rw [show 7 * (i + 1) = 7 * i + 7 by ring, pow_add]
      norm_num
    have hsmall : (d % 128) * 2 ^ (7 * i) < W64 := by
      have h1 : (d % 128) * 2 ^ (7 * i) < 128 * 2 ^ (7 * i) :=
        Nat.mul_lt_mul_of_lt_of_le hm128 (Nat.le_refl _) (Nat.two_pow_pos _)
      have h2 : (128 : Nat) * 2 ^ (7 * i) = 2 ^ (7 * i + 7) := by
        rw [pow_add]
        ring
      have h3 : (2 : Nat) ^ (7 * i + 7) ≤ 2 ^ 64 := Nat.pow_le_pow_right (by norm_num) (by omega)
      have h4 : W64 = 2 ^ 64 := rfl
      omega
    have hmod : ((d % 128) <<< (7 * i)) % W64 = (d % 128) * 2 ^ (7 * i) := by
      rw [Nat.shiftLeft_eq, Nat.mod_eq_of_lt hsmall]
    have hor : x0 ||| (d % 128) * 2 ^ (7 * i) = x0 + (d % 128) * 2 ^ (7 * i) := by
      have h := Nat.mul_add_lt_is_or (i := 7 * i) (b := x0) hx0 (d % 128)
      calc x0 ||| (d % 128) * 2 ^ (7 * i)
          = (d % 128) * 2 ^ (7 * i) ||| x0 := Nat.lor_comm _ _
        _ = 2 ^ (7 * i) * (d % 128) ||| x0 := by rw [Nat.mul_comm]
        _ = 2 ^ (7 * i) * (d % 128) + x0 := h.symm
        _ = x0 + (d % 128) * 2 ^ (7 * i) := by rw [Nat.mul_comm]; omega
    have hdiv : d >>> 7 = d / 128 := by
      simp [Nat.shiftRight_eq_div_pow]
    have hd1 : d >>> 7 < 2 ^ (64 - 7 * (i + 1)) := by
      rw [hdiv, Nat.div_lt_iff_lt_mul (show (0 : Nat) < 128 by norm_num)]
      have h2 : (2 : Nat) ^ (64 - 7 * (i + 1)) * 128 = 2 ^ (64 - 7 * i) := by
        rw [show (128 : Nat) = 2 ^ 7 from rfl, ← pow_add]
        congr 1
        omega
      rw [h2]
      exact hd
    have hx1 : x0 + (d % 128) * 2 ^ (7 * i) < 2 ^ (7 * (i + 1)) := by
      have h1 : (d % 128) * 2 ^ (7 * i) ≤ 127 * 2 ^ (7 * i) :=
        Nat.mul_le_mul_right _ (by omega)
      omega
    have hrec := ih (d >>> 7) (by rw [hdiv]; exact Nat.div_lt_self (by omega) (by norm_num))
      (i + 1) (x0 + (d % 128) * 2 ^ (7 * i)) rest (by omega) hd1 hx1
    simp only [List.cons_append, uvarintAux, if_neg h10, if_neg hb, hmask, hmod, hor,
      List.append_eq]
    rw [show 7 * i + 7 = 7 * (i + 1) by ring, hrec, Prod.mk.injEq]
    constructor
    · rw [hpow, hdiv]
      conv_rhs => rw [← Nat.mod_add_div d 128]
      ring
    · simp only [List.length_cons]
      push_cast
      ring

theorem uvarint_putUvarint (d : Nat) (rest : List Nat) (hd : d < W64) :
    uvarint (putUvarint d ++ rest) = (d, ((putUvarint d).length : Int)) := by
  have h := uvarintAux_putUvarint d 0 0 rest (by omega)
    (by simpa [W64] using hd) (by norm_num)
  simpa [uvarint] using h

theorem wsub_eq_sub (a b : Nat) (hb : b ≤ a) (ha : a < W64) : wsub a b = a - b := by
  simp only [wsub, W64] at *
  omega

theorem fromBackupLoop_ne_nil (buf : List Nat) (h : buf ≠ []) (prev : Nat)
    (acc : List Nat) :
    Codec.fromBackupLoop buf prev acc =
      if (uvarint buf).1 = 0 then acc
      else if (uvarint buf).2.toNat = 0 then acc
      else
        Codec.fromBackupLoop (buf.drop (uvarint buf).2.toNat)
          ((prev + (uvarint buf).1) % W64)
          (acc ++ [(prev + (uvarint buf).1) % W64]) := by
  cases buf with
  | nil => exact absurd rfl h
  | cons b bs =>
    rw [Codec.fromBackupLoop]
    simp only [dite_eq_ite]

theorem fromBackupLoop_decodeLoop (uids : List Nat) :
    ∀ (prev : Nat) (acc : List Nat), prev < W64 →
      List.Chain' (· < ·) (prev :: uids) → (∀ u ∈ uids, u < W64) →
      Codec.fromBackupLoop (Codec.decodeToBufferLoop uids prev) prev acc =
        acc ++ uids := by
  induction uids with
  | nil =>
    intro prev acc _ _ _
    simp [Codec.decodeToBufferLoop, Codec.fromBackupLoop]
  | cons u us ihu =>
    intro prev acc hprev hchain hlt
    have hpu : prev < u := (List.chain'_cons.mp hchain).1
    have hchain2 : List.Chain' (· < ·) (u :: us) := (List.chain'_cons.mp hchain).2
    have huW : u < W64 := hlt u (by simp)
    have hw : wsub u prev = u - prev := wsub_eq_sub u prev (by omega) huW
    have hd0 : u - prev ≠ 0 := by omega
    have hdW : u - prev < W64 := by omega
    have henc : Codec.decodeToBufferLoop (u :: us) prev =
        putUvarint (u - prev) ++ Codec.decodeToBufferLoop us u := by
      simp [Codec.decodeToBufferLoop, hw]
    rw [henc, fromBackupLoop_ne_nil _
      (List.append_ne_nil_of_left_ne_nil (putUvarint_ne_nil _) _) prev acc]
    rw [uvarint_putUvarint (u - prev) _ hdW]
    have hlen0 : (putUvarint (u - prev)).length ≠ 0 := by
      have := putUvarint_ne_nil (u - prev)
      simpa [List.length_eq_zero] using this
    simp only [Int.toNat_ofNat, if_neg hd0, if_neg hlen0, List.drop_left]
    have hnext : (prev + (u - prev)) % W64 = u := by
      rw [show prev + (u - prev) = u by omega, Nat.mod_eq_of_lt huW]
    rw [hnext]
    rw [ihu u (acc ++ [u]) huW hchain2 (fun v hv => hlt v (by simp [hv]))]
    simp

/-- C7: for every strictly sorted list of non-zero uids below `2^64`,
decoding the varint-delta encoding produced by `DecodeToBuffer` with
`FromBackup` yields exactly the original uids. -/
theorem fromBackup_decodeToBuffer_roundtrip (uids : List Nat)
    (hchain : List.Chain' (· < ·) (0 :: uids)) (hW : ∀ u ∈ uids, u < W64) :
    Codec.FromBackup (Codec.DecodeToBuffer uids) = uids := by
  have h := fromBackupLoop_decodeLoop uids 0 [] (by norm_num [W64]) hchain hW
  simpa [Codec.FromBackup, Codec.DecodeToBuffer, Sroar.FromSortedList,
    Sroar.ToArray] using h

/-- Witness for C7 at the concrete uid list `[1, 5, 300]`. -/
theorem fromBackup_decodeToBuffer_roundtrip_witness :
    List.Chain' (· < ·) (0 :: uidsW) ∧ (∀ u ∈ uidsW, u < W64) ∧
      Codec.FromBackup (Codec.DecodeToBuffer uidsW) = uidsW :=
  ⟨by norm_num [uidsW, List.chain'_cons, List.chain'_singleton], by decide,
    fromBackup_decodeToBuffer_roundtrip uidsW
      (by norm_num [uidsW, List.chain'_cons, List.chain'_singleton]) (by decide)⟩

/-- C6: converting a bitmap to a `pb.List` and back is the identity on the
underlying uid set: `FromList(ToList(bm)).ToArray()` equals
`bm.ToArray()`.  The empty bitmap goes through the nil-buffer special case
and still round-trips. -/
theorem fromList_toList_id (bm : Bitmap) :
    Sroar.ToArray (Codec.FromList (some (Codec.ToList bm))) = Sroar.ToArray bm := by
  cases bm with
  | nil => rfl
  | cons u us =>
    simp [Codec.FromList, Codec.ToList, Sroar.ToArray, Sroar.ToBufferWithCopy,
      Sroar.FromBufferWithCopy]

/-- C9: `RemoveRange bm lo hi` removes the closed interval `[lo, hi]` and
leaves membership of every uid outside the interval unchanged. -/
theorem removeRange_closed_interval (bm : Bitmap) (lo hi u : Nat)
    (hle : lo ≤ hi) :
    (lo ≤ u ∧ u ≤ hi → u ∉ Codec.RemoveRange bm lo hi) ∧
      (¬ (lo ≤ u ∧ u ≤ hi) → (u ∈ Codec.RemoveRange bm lo hi ↔ u ∈ bm)) := by
  constructor
  · rintro ⟨h1, h2⟩ hmem
    simp only [Codec.RemoveRange, Sroar.Remove, Sroar.RemoveRange,
      List.mem_filter, decide_eq_true_eq] at hmem
    omega
  · intro h
    simp only [Codec.RemoveRange, Sroar.Remove, Sroar.RemoveRange,
      List.mem_filter, decide_eq_true_eq]
    constructor
    · rintro ⟨⟨hm, _⟩, _⟩
      exact hm
    · intro hm
      refine ⟨⟨hm, by omega⟩, by omega⟩

/-- Witness for C9: removing `[2, 6]` from `{1, 5, 10}` removes 5. -/
theorem removeRange_closed_interval_witness :
    2 ≤ 6 ∧ 5 ∉ Codec.RemoveRange bmW 2 6 :=
  ⟨by decide, (removeRange_closed_interval bmW 2 6 5 (by decide)).1 (by decide)⟩

/-- C10: every codec accessor taking a list pointer treats nil as the empty
list: `GetUids nil = []`, `ListCardinality nil = 0`, and `FromList nil` and
`FromListNoCopy nil` are the empty bitmap. -/
theorem codec_nil_total :
    Codec.GetUids none = [] ∧ Codec.ListCardinality none = 0 ∧
      Codec.FromList none = Sroar.NewBitmap ∧
      Codec.FromListNoCopy none = Sroar.NewBitmap :=
  ⟨rfl, rfl, rfl, rfl⟩

/-- C2: for every key parsed with `has_start_uid` true, `ReadPostingList`
returns the `INVALID_KEY` error, no list, and performs no rollup enqueue at
either priority. -/
theorem readPostingList_rejects_multipart (key : KeyM) (items : List ItemM)
    (h : key.hasStartUid = true) :
    ReadPostingList key items = (.error .invalidKey, []) := by
  simp [ReadPostingList, h]

/-- Witness for C2 at a concrete multipart secondary key. -/
theorem readPostingList_rejects_multipart_witness :
    keyPartW.hasStartUid = true ∧
      ReadPostingList keyPartW itemsCompleteW = (.error .invalidKey, []) :=
  ⟨rfl, readPostingList_rejects_multipart keyPartW itemsCompleteW rfl⟩

/-- C5: on exit of `ReadPostingList` with delta count `dc`: the key is
enqueued at priority 0 when `dc > 500`, at priority 1 when `0 < dc ≤ 500`,
and not at all when `dc = 0`. -/
theorem readPostingList_rollup_enqueue (key : KeyM) (items : List ItemM)
    (h : key.hasStartUid = false) :
    ((readLoop (initList key) 0 items).2 > 500 →
        (ReadPostingList key items).2 = [(key, 0)]) ∧
      (0 < (readLoop (initList key) 0 items).2 →
        (readLoop (initList key) 0 items).2 ≤ 500 →
        (ReadPostingList key items).2 = [(key, 1)]) ∧
      ((readLoop (initList key) 0 items).2 = 0 →
        (ReadPostingList key items).2 = []) := by
  have he : (ReadPostingList key items).2 =
      rollupEnqueues key (readLoop (initList key) 0 items).2 := by
    simp [ReadPostingList, h]
  rw [he]
  refine ⟨fun h1 => ?_, fun h1 h2 => ?_, fun h1 => ?_⟩
  · rw [rollupEnqueues, if_pos (by omega), if_pos h1]
  · rw [rollupEnqueues, if_pos h1, if_neg (by omega)]
  · rw [rollupEnqueues, if_neg (by omega)]

/-- Witness for C5: one delta above a complete gives one priority-1
enqueue. -/
theorem readPostingList_rollup_enqueue_witness :
    keyMainW.hasStartUid = false ∧
      (ReadPostingList keyMainW itemsDeltaW).2 = [(keyMainW, 1)] :=
  ⟨rfl, (readPostingList_rollup_enqueue keyMainW itemsDeltaW rfl).2.1
    (by decide) (by decide)⟩

theorem readLoop_maxTs_le (readTs : Nat) :
    ∀ (items : List ItemM) (l : ListM) (dc : Nat),
      (∀ it ∈ items, it.version ≤ readTs) → l.maxTs ≤ readTs →
      ∀ (l2 : ListM) (dc2 : Nat), readLoop l dc items = (.ok l2, dc2) →
        l2.maxTs ≤ readTs := by
  intro items
  induction items with
  | nil =>
    intro l dc _ hl l2 dc2 heq
    simp only [readLoop, Prod.mk.injEq] at heq
    obtain ⟨h1, _⟩ := heq
    cases h1
    exact hl
  | cons item rest ih =>
    intro l dc hv hl l2 dc2 heq
    have hvi : item.version ≤ readTs := hv item (by simp)
    have hvr : ∀ it ∈ rest, it.version ≤ readTs := fun it hit => hv it (by simp [hit])
    have hmax : max l.maxTs item.version ≤ readTs := by omega
    simp only [readLoop] at heq
    split at heq
    · obtain ⟨h1, _⟩ := Prod.mk.injEq .. ▸ heq
      cases h1
      exact hl
    · split at heq
      · obtain ⟨h1, _⟩ := Prod.mk.injEq .. ▸ heq
        cases h1
        simpa using hmax
      · split at heq
        · obtain ⟨h1, _⟩ := Prod.mk.injEq .. ▸ heq
          cases h1
          simpa using hmax
        · split at heq
          · exact absurd heq (by simp)
          · obtain ⟨h1, _⟩ := Prod.mk.injEq .. ▸ heq
            cases h1
            simpa using hmax
        · split at heq
          · exact absurd heq (by simp)
          · split at heq
            · obtain ⟨h1, _⟩ := Prod.mk.injEq .. ▸ heq
              cases h1
              simpa using hmax
            · exact ih _ _ hvr (by simpa using hmax) _ _ heq
        · exact absurd heq (by simp)
        · exact absurd heq (by simp)

theorem getNewRead_maxTs_le (key : KeyM) (items : List ItemM)
    (readTs seenTs : Nat) (sw : Bool)
    (hv : ∀ it ∈ items, it.version ≤ readTs) :
    ∀ l, (getNewRead key items readTs seenTs sw).result = .ok l →
      l.maxTs ≤ readTs := by
  intro l hok
  unfold getNewRead at hok
  by_cases hs : key.hasStartUid
  · simp [ReadPostingList, hs] at hok
  · cases hR : (ReadPostingList key items).1 with
    | error e => rw [hR] at hok; simp at hok
    | ok l0 =>
      rw [hR] at hok
      simp only [Except.ok.injEq] at hok
      have h1 : (readLoop (initList key) 0 items).1 = .ok l0 := by
        simpa [ReadPostingList, hs] using hR
      have h2 : readLoop (initList key) 0 items =
          (.ok l0, (readLoop (initList key) 0 items).2) := by
        rw [← h1]
      have h3 : l0.maxTs ≤ readTs :=
        readLoop_maxTs_le readTs items (initList key) 0 hv
          (by simp [initList]) l0 _ h2
      rw [← hok]
      simpa using h3

/-- C1: whenever `getNew` returns a list without error at read timestamp
`readTs` — on the cache-hit path or on the KV-read path, whose iterator
only yields versions visible at the `readTs` snapshot — the returned
list's `maxTs` is at most `readTs`. -/
theorem getNew_maxTs_le_readTs (key : KeyM) (dbClosed : Bool)
    (cache : Option CacheVal) (items : List ItemM) (readTs : Nat)
    (hv : ∀ it ∈ items, it.version ≤ readTs) :
    ∀ l, (getNew key dbClosed cache items readTs).result = .ok l →
      l.maxTs ≤ readTs := by
  intro l hok
  unfold getNew at hok
  cases dbClosed with
  | true => simp at hok
  | false =>
    simp only [Bool.false_eq_true, if_false] at hok
    match cache with
    | some (.lst c) =>
      dsimp only at hok
      by_cases hc : c.maxTs ≤ readTs
      · rw [if_pos hc] at hok
        simp only [Except.ok.injEq] at hok
        rw [← hok]
        simpa [copyList] using hc
      · rw [if_neg hc] at hok
        exact getNewRead_maxTs_le key items readTs 0 false hv l hok
    | some (.sentinel t) =>
      dsimp only at hok
      exact getNewRead_maxTs_le key items readTs t false hv l hok
    | none =>
      dsimp only at hok
      exact getNewRead_maxTs_le key items readTs 0 true hv l hok

/-- Witness for C1: a concrete KV read at timestamp 10 over one COMPLETE
item at version 5. -/
theorem getNew_maxTs_le_readTs_witness :
    (∀ it ∈ itemsCompleteW, it.version ≤ 10) ∧ c1ListW.maxTs ≤ 10 :=
  ⟨by decide,
    getNew_maxTs_le_readTs keyMainW false none itemsCompleteW 10 (by decide)
      c1ListW (by decide)⟩

theorem getNewRead_installed (key : KeyM) (items : List ItemM)
    (readTs seenTs : Nat) (sw : Bool) :
    ((getNewRead key items readTs seenTs sw).installed = true →
        latestTsOf items ≤ readTs ∧ seenTs ≤ latestTsOf items) ∧
      (latestTsOf items < seenTs →
        (getNewRead key items readTs seenTs sw).installed = false) := by
  unfold getNewRead
  cases hR : (ReadPostingList key items).1 with
  | error e => simp
  | ok l0 =>
    simp only [decide_eq_true_eq]
    constructor
    · intro h
      exact ⟨h.1, h.2⟩
    · intro h
      simp only [decide_eq_false_iff_not]
      omega

/-- C4: `getNew` offers the freshly built list to the cache only when
`readTs ≥ latestTs` and `latestTs ≥ seenTs`, where `latestTs` is the
version returned by the iterator seek and `seenTs` the sentinel observed
in (or 0 if absent from) the cache before the KV read; in particular when
`seenTs > latestTs` the reader declines to overwrite the slot. -/
theorem getNew_install_guard (key : KeyM) (dbClosed : Bool)
    (cache : Option CacheVal) (items : List ItemM) (readTs : Nat) :
    ((getNew key dbClosed cache items readTs).installed = true →
        latestTsOf items ≤ readTs ∧ seenTsOf cache ≤ latestTsOf items) ∧
      (latestTsOf items < seenTsOf cache →
        (getNew key dbClosed cache items readTs).installed = false) := by
  unfold getNew
  cases dbClosed with
  | true => simp
  | false =>
    simp only [Bool.false_eq_true, if_false]
    match cache with
    | some (.lst c) =>
      dsimp only
      by_cases hc : c.maxTs ≤ readTs
      · rw [if_pos hc]
        simp [seenTsOf]
      · rw [if_neg hc]
        have h := getNewRead_installed key items readTs 0 false
        simpa [seenTsOf] using h
    | some (.sentinel t) =>
      dsimp only
      simpa [seenTsOf] using getNewRead_installed key items readTs t false
    | none =>
      dsimp only
      simpa [seenTsOf] using getNewRead_installed key items readTs 0 true

/-- Witness for C4: sentinel 50 in the cache, seek version 30, read
timestamp 60 — the reader declines to install. -/
theorem getNew_install_guard_witness :
    latestTsOf itemsLatest30W < seenTsOf cacheSentinelW ∧
      (getNew keyMainW false cacheSentinelW itemsLatest30W 60).installed = false :=
  ⟨by decide,
    (getNew_install_guard keyMainW false cacheSentinelW itemsLatest30W 60).2
      (by decide)⟩

theorem skiplistEntry_eq_some (validEntry : List Nat → List Nat → Bool)
    (D : List (List Nat × List Nat)) (k : List Nat) (e : SklEntry) :
    skiplistEntry validEntry D k = some e ↔
      e = ⟨k, MaxU64, deltasGet D k, .delta⟩ ∧
        ¬ (deltasGet D k).length = 0 ∧ validEntry k (deltasGet D k) = true := by
  unfold skiplistEntry
  by_cases h0 : (deltasGet D k).length = 0
  · simp [h0]
  · by_cases hv : validEntry k (deltasGet D k)
    · simp [h0, hv, eq_comm]
    · simp [h0, hv]

theorem deltasGet_mem (D : List (List Nat × List Nat)) (k : List Nat)
    (h : deltasGet D k ≠ []) : (k, deltasGet D k) ∈ D := by
  induction D with
  | nil => simp [deltasGet] at h
  | cons p rest ih =>
    obtain ⟨k0, v0⟩ := p
    by_cases hk : k0 = k
    · subst hk
      simp [deltasGet]
    · simp only [deltasGet, if_neg hk] at h ⊢
      exact List.mem_cons_of_mem _ (ih h)

theorem deltasGet_of_mem_nodup (D : List (List Nat × List Nat))
    (k v : List Nat) (hnd : (D.map Prod.fst).Nodup) (h : (k, v) ∈ D) :
    deltasGet D k = v := by
  induction D with
  | nil => simp at h
  | cons p rest ih =>
    obtain ⟨k0, v0⟩ := p
    simp only [List.map_cons, List.nodup_cons] at hnd
    rcases List.mem_cons.mp h with h1 | h1
    · injection h1 with hk hv
      subst hk
      subst hv
      simp [deltasGet]
    · by_cases hk : k0 = k
      · subst hk
        exact absurd (List.mem_map.mpr ⟨(k0, v), h1, rfl⟩) hnd.1
      · simp only [deltasGet, if_neg hk]
        exact ih hnd.2 h1

/-- C3 (amended): after `ToSkiplist` the built skiplist contains exactly
one entry for each delta key whose value is non-empty and accepted by the
KV store's per-entry validity check; entries are in strictly ascending raw
key order, each at version `MaxUint64` with user-meta `BitDeltaPosting`
and carrying the key's delta payload. -/
theorem toSkiplist_entries_spec (validEntry : List Nat → List Nat → Bool)
    (txn : TxnM) (hnd : (txn.cache.deltas.map Prod.fst).Nodup) :
    (∀ e ∈ ToSkiplist validEntry txn,
        e.version = MaxU64 ∧ e.userMeta = .delta ∧
          e.value = deltasGet txn.cache.deltas e.key) ∧
      List.Pairwise (fun e1 e2 : SklEntry => e1.key < e2.key)
        (ToSkiplist validEntry txn) ∧
      ∀ k, (∃ e ∈ ToSkiplist validEntry txn, e.key = k) ↔
        ∃ v, (k, v) ∈ txn.cache.deltas ∧ v ≠ [] ∧ validEntry k v = true := by
  have hTS : ToSkiplist validEntry txn =
      (List.insertionSort (· ≤ ·) (txn.cache.deltas.map Prod.fst)).filterMap
        (skiplistEntry validEntry txn.cache.deltas) := rfl
  refine ⟨?_, ?_, ?_⟩
  · intro e he
    rw [hTS, List.mem_filterMap] at he
    obtain ⟨a, _, hfa⟩ := he
    obtain ⟨hee, _, _⟩ :=
      (skiplistEntry_eq_some validEntry txn.cache.deltas a e).mp hfa
    subst hee
    exact ⟨rfl, rfl, rfl⟩
  · have hsort : List.Sorted (· ≤ ·)
        (List.insertionSort (· ≤ ·) (txn.cache.deltas.map Prod.fst)) :=
      List.sorted_insertionSort _ _
    have hnd2 : (List.insertionSort (· ≤ ·)
        (txn.cache.deltas.map Prod.fst)).Nodup :=
      ((List.perm_insertionSort _ _).nodup_iff).mpr hnd
    have hlt : List.Pairwise (· < ·)
        (List.insertionSort (· ≤ ·) (txn.cache.deltas.map Prod.fst)) :=
      (hsort.and hnd2).imp fun h => lt_of_le_of_ne h.1 h.2
    rw [hTS]
    refine List.Pairwise.filterMap _ ?_ hlt
    intro a b hab x hx y hy
    obtain ⟨hex, _, _⟩ :=
      (skiplistEntry_eq_some validEntry txn.cache.deltas a x).mp hx
    obtain ⟨hey, _, _⟩ :=
      (skiplistEntry_eq_some validEntry txn.cache.deltas b y).mp hy
    subst hex
    subst hey
    exact hab
  · intro k
    constructor
    · rintro ⟨e, he, rfl⟩
      rw [hTS, List.mem_filterMap] at he
      obtain ⟨a, _, hfa⟩ := he
      obtain ⟨hee, h0, hv⟩ :=
        (skiplistEntry_eq_some validEntry txn.cache.deltas a e).mp hfa
      subst hee
      refine ⟨deltasGet txn.cache.deltas a,
        deltasGet_mem _ _ (by simpa [List.length_eq_zero] using h0), ?_, hv⟩
      simpa [List.length_eq_zero] using h0
    · rintro ⟨v, hmem, hne, hval⟩
      have hget : deltasGet txn.cache.deltas k = v :=
        deltasGet_of_mem_nodup _ _ _ hnd hmem
      have hk2 : k ∈ List.insertionSort (· ≤ ·)
          (txn.cache.deltas.map Prod.fst) :=
        ((List.perm_insertionSort _ _).mem_iff).mpr
          (List.mem_map.mpr ⟨(k, v), hmem, rfl⟩)
      refine ⟨⟨k, MaxU64, deltasGet txn.cache.deltas k, .delta⟩, ?_, rfl⟩
      rw [hTS, List.mem_filterMap]
      refine ⟨k, hk2, (skiplistEntry_eq_some _ _ _ _).mpr ⟨rfl, ?_, ?_⟩⟩
      · simp [hget, List.length_eq_zero, hne]
      · rw [hget]
        exact hval

/-- Witness for the amended C3 on a concrete two-key transaction. -/
theorem toSkiplist_entries_spec_witness :
    (txnTwoKeysW.cache.deltas.map Prod.fst).Nodup ∧
      ∃ e ∈ ToSkiplist (validUpTo 10) txnTwoKeysW, e.key = [1] :=
  ⟨by decide,
    ((toSkiplist_entries_spec (validUpTo 10) txnTwoKeysW (by decide)).2.2
      [1]).mpr ⟨[8], by decide, by decide, by decide⟩⟩

/-- C3 counterexample for the claim as stated: a transaction with one
non-empty delta whose entry the KV store's validity check rejects produces
an empty skiplist, not one entry per non-empty delta key. -/
theorem toSkiplist_claim_counterexample :
    ToSkiplist (validUpTo 2) txnBigDeltaW = [] ∧
      ([1], [2, 3, 4]) ∈ txnBigDeltaW.cache.deltas ∧
      ([2, 3, 4] : List Nat) ≠ [] :=
  ⟨by decide, by decide, by decide⟩

/-- C8: evaluation of the worker loop at a concrete trace showing the
10-second dedup window violated.  `doRollup` stores `time.Now().Unix()`
(whole seconds) in the dedup map, but the cleanup tick compares
`time.Now().UnixNano()` (nanoseconds) against those stored seconds with
the threshold `int64(10*time.Second)` = 10^10 nanoseconds, so the cleanup
deletes every entry regardless of age; after a cleanup tick the same key
is rolled up again only 2 seconds after its previous rollup. -/
theorem rollup_dedup_window_violated :
    procRun hashHead [] eventsC8 =
        [(keyC8, 100 * nsPerSec), (keyC8, 102 * nsPerSec)] ∧
      102 * nsPerSec - 100 * nsPerSec < 10 * nsPerSec :=
  ⟨by decide, by decide⟩
